import Mathlib

/-!
Verification of the gateway's orchestration layer: the fusion cache
(dataCache.js), the request throttler and retry wrapper
(serviceHandlers.js), the per-frame batching of face calls
(serviceHandlers.js), the YouTube stream manager's admission control
(youtubeStream.js), and the JPEG frame demultiplexer used for remote
video ingestion.  JavaScript objects used as keyed maps are modelled as
association lists with JS-object semantics (updating an existing key
keeps its position, a new key is appended, Object.keys returns keys in
insertion order); millisecond timestamps are modelled as Int; the float
fields confidence and speaking_time are only ever stored and compared,
never computed with, so they are modelled as rationals.
-/

namespace Jules

/-! ## JavaScript object model: association lists keyed by Nat -/

/-- Semantics of o[k] = v on a JS object: overwrite in place if the key
exists, append otherwise. -/
def objSet (k : Nat) (v : β) : List (Nat × β) → List (Nat × β)
  | [] => [(k, v)]
  | (k', v') :: rest =>
    if k' = k then (k, v) :: rest else (k', v') :: objSet k v rest

/-- Semantics of reading o[k]: the first binding of k, if any. -/
def objGet (k : Nat) : List (Nat × β) → Option β
  | [] => none
  | (k', v') :: rest => if k' = k then some v' else objGet k rest

/-- Semantics of delete o[k]. -/
def objDelete (k : Nat) (o : List (Nat × β)) : List (Nat × β) :=
  o.filter (fun p => p.1 ≠ k)

/-- Semantics of Object.keys(o) / for...in iteration order. -/
def objKeys (o : List (Nat × β)) : List Nat :=
  o.map Prod.fst

theorem objGet_objDelete_self (k : Nat) (o : List (Nat × β)) :
    objGet k (objDelete k o) = none := by
  induction o with
  | nil => rfl
  | cons p rest ih =>
    by_cases h : p.1 = k
    · simpa [objDelete, h] using ih
    · simpa [objDelete, objGet, h] using ih

theorem objGet_objDelete_ne (k k' : Nat) (o : List (Nat × β)) (h : k' ≠ k) :
    objGet k' (objDelete k o) = objGet k' o := by
  induction o with
  | nil => rfl
  | cons p rest ih =>
    rcases p with ⟨a, v⟩
    by_cases hp : a = k
    · have hfilter : objDelete k ((a, v) :: rest) = objDelete k rest := by
        simp [objDelete, hp]
      have hak' : ¬ a = k' := by
        rw [hp]; exact fun hk => h hk.symm
      rw [hfilter, ih]
      simp [objGet, hak']
    · have hfilter : objDelete k ((a, v) :: rest) = (a, v) :: objDelete k rest := by
        simp [objDelete, hp]
      rw [hfilter]
      by_cases hk : a = k'
      · simp [objGet, hk]
      · simp [objGet, hk, ih]

theorem objGet_eq_none_iff (k : Nat) (o : List (Nat × β)) :
    objGet k o = none ↔ k ∉ objKeys o := by
  induction o with
  | nil => simp [objGet, objKeys]
  | cons p rest ih =>
    rcases p with ⟨a, v⟩
    have hkeys : objKeys ((a, v) :: rest) = a :: objKeys rest := rfl
    by_cases hp : a = k
    · subst hp
      simp [objGet, hkeys]
    · rw [hkeys]
      simp only [objGet, hp, if_false, ih, List.mem_cons]
      constructor
      · intro hni hor
        rcases hor with hor | hor
        · exact hp hor.symm
        · exact hni hor
      · intro hni hmem
        exact hni (Or.inr hmem)

/-! ## Fusion cache (dataCache.js) -/

/-- Face record as stored in this.data.faces by updateVisionData. -/
structure FaceData where
  id : Nat
  face_image : List Nat
  x : Int
  y : Int
  width : Int
  height : Int
deriving DecidableEq, Repr

/-- Entry of this.data.emotions. -/
structure EmotionEntry where
  emotion : String
  confidence : ℚ
deriving DecidableEq, Repr

/-- Entry of this.data.speechStatus. -/
structure SpeechEntry where
  is_speaking : Bool
  speaking_time : ℚ
deriving DecidableEq, Repr

/-- The four maps of DataCache.this.data. -/
structure CacheData where
  faces : List (Nat × FaceData)
  emotions : List (Nat × EmotionEntry)
  speechStatus : List (Nat × SpeechEntry)
  lastUpdate : List (Nat × Int)
deriving DecidableEq, Repr

/-- An empty cache, as built by the DataCache constructor. -/
def emptyCache : CacheData := ⟨[], [], [], []⟩

/-- DataCache.removeFace: delete the id from all four maps. -/
def removeFace (faceId : Nat) (d : CacheData) : CacheData :=
  { faces := objDelete faceId d.faces
    emotions := objDelete faceId d.emotions
    speechStatus := objDelete faceId d.speechStatus
    lastUpdate := objDelete faceId d.lastUpdate }

/-- Body of the for...in loop of DataCache.cleanup for one key: re-read the
key's current timestamp and remove the face when now - lastUpdate > timeout. -/
def cleanupStep (now timeout : Int) (acc : CacheData) (faceId : Nat) : CacheData :=
  match objGet faceId acc.lastUpdate with
  | some t => if now - t > timeout then removeFace faceId acc else acc
  | none => acc

/-- DataCache.cleanup: iterate over the keys of lastUpdate, evicting stale
ids.  The loop's deletions only ever touch the key currently being
visited, so folding over the initial key list is the for...in semantics. -/
def cleanup (now timeout : Int) (d : CacheData) : CacheData :=
  (objKeys d.lastUpdate).foldl (cleanupStep now timeout) d

/-- Face object of a VisionService response (fields consumed by the
gateway; landmarks are forwarded to the per-face services). -/
structure Face where
  id : Nat
  face_image : List Nat
  x : Int
  y : Int
  width : Int
  height : Int
  landmarks : List Int
deriving DecidableEq, Repr

/-- DataCache.updateVisionData: a null/undefined argument returns without
touching the cache, otherwise every face is upserted into faces and its
lastUpdate timestamp refreshed. -/
def updateVisionData (faces : Option (List Face)) (now : Int) (d : CacheData) : CacheData :=
  match faces with
  | none => d
  | some fs =>
    fs.foldl (fun acc face =>
      { acc with
        faces := objSet face.id
          ⟨face.id, face.face_image, face.x, face.y, face.width, face.height⟩ acc.faces
        lastUpdate := objSet face.id now acc.lastUpdate }) d

/-- Response of EmotionService.AnalyzeEmotion. -/
structure EmotionResponse where
  face_id : Nat
  emotion : String
  confidence : ℚ
deriving DecidableEq, Repr

/-- DataCache.updateEmotionData. -/
def updateEmotionData (r : Option EmotionResponse) (now : Int) (d : CacheData) : CacheData :=
  match r with
  | none => d
  | some resp =>
    { d with
      emotions := objSet resp.face_id ⟨resp.emotion, resp.confidence⟩ d.emotions
      lastUpdate := objSet resp.face_id now d.lastUpdate }

/-- Response of SpeechService.DetectSpeech. -/
structure SpeechResponse where
  face_id : Nat
  is_speaking : Bool
  speaking_time : ℚ
deriving DecidableEq, Repr

/-- DataCache.updateSpeechData. -/
def updateSpeechData (r : Option SpeechResponse) (now : Int) (d : CacheData) : CacheData :=
  match r with
  | none => d
  | some resp =>
    { d with
      speechStatus := objSet resp.face_id ⟨resp.is_speaking, resp.speaking_time⟩ d.speechStatus
      lastUpdate := objSet resp.face_id now d.lastUpdate }

/-- Record of the speakers array returned by getCombinedData; face_image
none models the null produced for a missing image, some bs the base64
rendering of the bytes bs (base64 is injective, so the bytes stand in
for the string). -/
structure SpeakerRecord where
  id : Nat
  face_image : Option (List Nat)
  emotion : String
  emotion_confidence : ℚ
  is_speaking : Bool
  speaking_time : ℚ
deriving DecidableEq, Repr

/-- DataCache.getCombinedData: one record per key of the faces map, with
defaults ("unknown", 0.0) and (false, 0.0) for a missing emotion or
speech entry.  The early return for an empty faces map produces the
same empty speakers array as mapping over no keys. -/
def getCombinedData (d : CacheData) : List SpeakerRecord :=
  (objKeys d.faces).map (fun faceId =>
    let emotionData := (objGet faceId d.emotions).getD ⟨"unknown", 0⟩
    let speechData := (objGet faceId d.speechStatus).getD ⟨false, 0⟩
    let base64FaceImage := (objGet faceId d.faces).map (fun fd => fd.face_image)
    { id := faceId
      face_image := base64FaceImage
      emotion := emotionData.emotion
      emotion_confidence := emotionData.confidence
      is_speaking := speechData.is_speaking
      speaking_time := speechData.speaking_time })

/-! ## Cache lemmas -/

theorem objGet_objSet_self (k : Nat) (v : β) (o : List (Nat × β)) :
    objGet k (objSet k v o) = some v := by
  induction o with
  | nil => simp [objSet, objGet]
  | cons p rest ih =>
    rcases p with ⟨a, w⟩
    by_cases hp : a = k
    · simp [objSet, objGet, hp]
    · simp [objSet, objGet, hp, ih]

/-- The id is gone from every map after removeFace. -/
def AbsentFromCache (id : Nat) (d : CacheData) : Prop :=
  objGet id d.faces = none ∧ objGet id d.emotions = none ∧
  objGet id d.speechStatus = none ∧ objGet id d.lastUpdate = none

/-- All four maps agree at the id between two cache states. -/
def CacheAgreesAt (id : Nat) (d d' : CacheData) : Prop :=
  objGet id d'.faces = objGet id d.faces ∧
  objGet id d'.emotions = objGet id d.emotions ∧
  objGet id d'.speechStatus = objGet id d.speechStatus ∧
  objGet id d'.lastUpdate = objGet id d.lastUpdate

theorem absentFromCache_removeFace_self (id : Nat) (d : CacheData) :
    AbsentFromCache id (removeFace id d) :=
  ⟨objGet_objDelete_self id d.faces, objGet_objDelete_self id d.emotions,
   objGet_objDelete_self id d.speechStatus, objGet_objDelete_self id d.lastUpdate⟩

theorem removeFace_agreesAt (id k : Nat) (d : CacheData) (h : id ≠ k) :
    CacheAgreesAt id d (removeFace k d) :=
  ⟨objGet_objDelete_ne k id d.faces h, objGet_objDelete_ne k id d.emotions h,
   objGet_objDelete_ne k id d.speechStatus h, objGet_objDelete_ne k id d.lastUpdate h⟩

theorem absentFromCache_removeFace (id k : Nat) (d : CacheData)
    (h : AbsentFromCache id d) : AbsentFromCache id (removeFace k d) := by
  by_cases hk : id = k
  · subst hk; exact absentFromCache_removeFace_self id d
  · obtain ⟨h1, h2, h3, h4⟩ := removeFace_agreesAt id k d hk
    exact ⟨h1.trans h.1, h2.trans h.2.1, h3.trans h.2.2.1, h4.trans h.2.2.2⟩

theorem cacheAgreesAt_refl (id : Nat) (d : CacheData) : CacheAgreesAt id d d :=
  ⟨rfl, rfl, rfl, rfl⟩

theorem cacheAgreesAt_trans {id : Nat} {d₁ d₂ d₃ : CacheData}
    (h : CacheAgreesAt id d₁ d₂) (h' : CacheAgreesAt id d₂ d₃) :
    CacheAgreesAt id d₁ d₃ :=
  ⟨h'.1.trans h.1, h'.2.1.trans h.2.1, h'.2.2.1.trans h.2.2.1, h'.2.2.2.trans h.2.2.2⟩

theorem absentFromCache_cleanupStep (now timeout : Int) (id k : Nat) (acc : CacheData)
    (h : AbsentFromCache id acc) :
    AbsentFromCache id (cleanupStep now timeout acc k) := by
  unfold cleanupStep
  cases objGet k acc.lastUpdate with
  | none => exact h
  | some t =>
    by_cases hs : now - t > timeout
    · simpa [hs] using absentFromCache_removeFace id k acc h
    · simpa [hs] using h

theorem absentFromCache_foldl (now timeout : Int) (id : Nat) :
    ∀ (ks : List Nat) (acc : CacheData), AbsentFromCache id acc →
      AbsentFromCache id (ks.foldl (cleanupStep now timeout) acc) := by
  intro ks
  induction ks with
  | nil => intro acc h; exact h
  | cons k ks ih =>
    intro acc h
    exact ih _ (absentFromCache_cleanupStep now timeout id k acc h)

theorem cleanupStep_agreesAt_ne (now timeout : Int) (id k : Nat) (acc : CacheData)
    (h : id ≠ k) :
    CacheAgreesAt id acc (cleanupStep now timeout acc k) := by
  unfold cleanupStep
  cases objGet k acc.lastUpdate with
  | none => exact cacheAgreesAt_refl id acc
  | some t =>
    by_cases hs : now - t > timeout
    · simpa [hs] using removeFace_agreesAt id k acc h
    · simpa [hs] using cacheAgreesAt_refl id acc

theorem cleanup_foldl_retains (now timeout : Int) (id : Nat) (t : Int)
    (hfresh : now - t ≤ timeout) :
    ∀ (ks : List Nat) (acc : CacheData), objGet id acc.lastUpdate = some t →
      CacheAgreesAt id acc (ks.foldl (cleanupStep now timeout) acc) := by
  intro ks
  induction ks with
  | nil => intro acc _; exact cacheAgreesAt_refl id acc
  | cons k ks ih =>
    intro acc hlu
    by_cases hk : k = id
    · subst hk
      have hstep : cleanupStep now timeout acc k = acc := by
        unfold cleanupStep
        rw [hlu]
        simp [not_lt.mpr hfresh]
      rw [List.foldl_cons, hstep]
      exact ih acc hlu
    · have hagree := cleanupStep_agreesAt_ne now timeout id k acc (fun h => hk h.symm)
      have hlu' : objGet id (cleanupStep now timeout acc k).lastUpdate = some t :=
        hagree.2.2.2.trans hlu
      rw [List.foldl_cons]
      exact cacheAgreesAt_trans hagree (ih _ hlu')

theorem cleanup_foldl_evicts (now timeout : Int) (id : Nat) (t : Int)
    (hstale : now - t > timeout) :
    ∀ (ks : List Nat) (acc : CacheData), id ∈ ks →
      objGet id acc.lastUpdate = some t →
      AbsentFromCache id (ks.foldl (cleanupStep now timeout) acc) := by
  intro ks
  induction ks with
  | nil => intro acc h; exact absurd h (List.not_mem_nil id)
  | cons k ks ih =>
    intro acc hmem hlu
    by_cases hk : k = id
    · subst hk
      have hstep : cleanupStep now timeout acc k = removeFace k acc := by
        unfold cleanupStep
        rw [hlu]
        simp [hstale]
      rw [List.foldl_cons, hstep]
      exact absentFromCache_foldl now timeout k ks _ (absentFromCache_removeFace_self k acc)
    · have hmem' : id ∈ ks := by
        rcases List.mem_cons.mp hmem with h | h
        · exact absurd h.symm hk
        · exact h
      have hagree := cleanupStep_agreesAt_ne now timeout id k acc (fun h => hk h.symm)
      have hlu' : objGet id (cleanupStep now timeout acc k).lastUpdate = some t :=
        hagree.2.2.2.trans hlu
      rw [List.foldl_cons]
      exact ih _ hmem' hlu'

theorem getCombinedData_id_mem (d : CacheData) (r : SpeakerRecord)
    (hr : r ∈ getCombinedData d) : r.id ∈ objKeys d.faces := by
  unfold getCombinedData at hr
  rcases List.mem_map.mp hr with ⟨faceId, hmem, heq⟩
  have : r.id = faceId := by rw [← heq]
  rwa [this]

theorem objGet_mem_keys {k : Nat} {o : List (Nat × β)} {v : β}
    (h : objGet k o = some v) : k ∈ objKeys o := by
  by_contra hnot
  rw [← objGet_eq_none_iff] at hnot
  rw [h] at hnot
  exact Option.noConfusion hnot

/-! ## Cache claims -/

/-- C10: calling any of the three upsert operations with a null argument
leaves all four internal maps unchanged. -/
theorem nullUpsertsLeaveCacheUnchanged (d : CacheData) (now : Int) :
    updateVisionData none now d = d ∧
    updateEmotionData none now d = d ∧
    updateSpeechData none now d = d :=
  ⟨rfl, rfl, rfl⟩

/-- C7: removeFace removes the id from the faces, emotions, speechStatus
and lastUpdate maps in one step, and leaves every other id's entries in
all four maps unchanged. -/
theorem removeFaceIsAtomicAndFramed (faceId : Nat) (d : CacheData) :
    AbsentFromCache faceId (removeFace faceId d) ∧
    ∀ k, k ≠ faceId → CacheAgreesAt k d (removeFace faceId d) :=
  ⟨absentFromCache_removeFace_self faceId d,
   fun k hk => removeFace_agreesAt k faceId d hk⟩

/-- Example cache used to instantiate the cache theorems. -/
def sampleCache : CacheData :=
  { faces := [(1, ⟨1, [7], 0, 0, 2, 2⟩), (2, ⟨2, [8], 1, 1, 2, 2⟩)]
    emotions := [(2, ⟨"happy", 1⟩)]
    speechStatus := [(2, ⟨true, 4⟩)]
    lastUpdate := [(1, 0), (2, 500)] }

theorem removeFaceIsAtomicAndFramed_witness :
    AbsentFromCache 1 (removeFace 1 sampleCache) ∧
    CacheAgreesAt 2 sampleCache (removeFace 1 sampleCache) :=
  ⟨(removeFaceIsAtomicAndFramed 1 sampleCache).1,
   (removeFaceIsAtomicAndFramed 1 sampleCache).2 2 (by decide)⟩

/-- C6: every record of the snapshot corresponds to a key of the faces
map, and missing emotion or speech entries default to ("unknown", 0)
and (false, 0). -/
theorem snapshotRecordsComeFromFaceMap (d : CacheData) :
    ∀ r ∈ getCombinedData d,
      r.id ∈ objKeys d.faces ∧
      (objGet r.id d.emotions = none →
        r.emotion = "unknown" ∧ r.emotion_confidence = 0) ∧
      (objGet r.id d.speechStatus = none →
        r.is_speaking = false ∧ r.speaking_time = 0) := by
  intro r hr
  refine ⟨getCombinedData_id_mem d r hr, ?_, ?_⟩
  · intro hnone
    unfold getCombinedData at hr
    rcases List.mem_map.mp hr with ⟨faceId, _, heq⟩
    have hid : r.id = faceId := by rw [← heq]
    rw [hid] at hnone
    rw [← heq]
    simp [hnone]
  · intro hnone
    unfold getCombinedData at hr
    rcases List.mem_map.mp hr with ⟨faceId, _, heq⟩
    have hid : r.id = faceId := by rw [← heq]
    rw [hid] at hnone
    rw [← heq]
    simp [hnone]

theorem snapshotRecordsComeFromFaceMap_witness :
    (1 : Nat) ∈ objKeys sampleCache.faces ∧
    ((getCombinedData sampleCache).get ⟨0, by decide⟩).emotion = "unknown" ∧
    ((getCombinedData sampleCache).get ⟨0, by decide⟩).is_speaking = false := by
  have hmem : (getCombinedData sampleCache).get ⟨0, by decide⟩ ∈ getCombinedData sampleCache :=
    List.get_mem _ _ _
  have h := snapshotRecordsComeFromFaceMap sampleCache _ hmem
  have hid : ((getCombinedData sampleCache).get ⟨0, by decide⟩).id = 1 := by decide
  refine ⟨by decide, ?_, ?_⟩
  · exact (h.2.1 (by rw [hid]; decide)).1
  · exact (h.2.2 (by rw [hid]; decide)).1

/-- C5: a sweep at time now with the given timeout removes every entity
whose last update t satisfies now - t > timeout from all four maps
(hence from any subsequent snapshot), and retains, untouched, every
entity with now - t ≤ timeout; in particular the boundary case
now - t = timeout is retained (the eviction condition is strict). -/
theorem sweepEvictsExactlyStaleEntries (d : CacheData) (now timeout : Int)
    (id : Nat) (t : Int) (hlu : objGet id d.lastUpdate = some t) :
    (now - t > timeout →
      AbsentFromCache id (cleanup now timeout d) ∧
      ∀ r ∈ getCombinedData (cleanup now timeout d), r.id ≠ id) ∧
    (now - t ≤ timeout → CacheAgreesAt id d (cleanup now timeout d)) := by
  constructor
  · intro hstale
    have hmem : id ∈ objKeys d.lastUpdate := objGet_mem_keys hlu
    have habs : AbsentFromCache id (cleanup now timeout d) :=
      cleanup_foldl_evicts now timeout id t hstale (objKeys d.lastUpdate) d hmem hlu
    refine ⟨habs, ?_⟩
    intro r hr hid
    have hkeys : r.id ∈ objKeys (cleanup now timeout d).faces :=
      getCombinedData_id_mem _ r hr
    rw [hid] at hkeys
    exact (objGet_eq_none_iff id (cleanup now timeout d).faces).mp habs.1 hkeys
  · intro hfresh
    exact cleanup_foldl_retains now timeout id t hfresh (objKeys d.lastUpdate) d hlu

theorem sweepEvictsExactlyStaleEntries_witness :
    AbsentFromCache 1 (cleanup 10001 10000 sampleCache) ∧
    CacheAgreesAt 1 sampleCache (cleanup 10000 10000 sampleCache) :=
  ⟨((sweepEvictsExactlyStaleEntries sampleCache 10001 10000 1 0 (by decide)).1
      (by decide)).1,
   (sweepEvictsExactlyStaleEntries sampleCache 10000 10000 1 0 (by decide)).2
      (by decide)⟩

/-! ## C9: speaking_time across snapshots -/

/-- Face used in the speaking-time scenario. -/
def c9face : Face := ⟨1, [7], 0, 0, 2, 2, []⟩

/-- Cache after the face is detected. -/
def c9d1 : CacheData := updateVisionData (some [c9face]) 0 emptyCache

/-- Cache after a speech upsert reporting speaking_time 5. -/
def c9d2 : CacheData := updateSpeechData (some ⟨1, true, 5⟩) 0 c9d1

/-- Cache after a later speech upsert reporting speaking_time 3. -/
def c9d3 : CacheData := updateSpeechData (some ⟨1, true, 3⟩) 1 c9d2

/-- C9 counterexample: the cache is last-write-wins, so a speech upsert
carrying a smaller speaking_time makes the value observed in the next
snapshot decrease (from 5 to 3 here) although the entity stays alive in
the faces map throughout. -/
theorem speakingTimeCanDecreaseAcrossSnapshots :
    objGet 1 c9d2.faces ≠ none ∧ objGet 1 c9d3.faces ≠ none ∧
    (getCombinedData c9d2).map SpeakerRecord.speaking_time = [5] ∧
    (getCombinedData c9d3).map SpeakerRecord.speaking_time = [3] ∧
    ¬ ((5 : ℚ) ≤ 3) := by
  refine ⟨?_, ?_, ?_, ?_, ?_⟩ <;> decide

/-- C9 amended: the snapshot reports for an id exactly the speaking_time
of the most recent speech upsert for it, so the observed values are
non-decreasing precisely when the upserted values are. -/
theorem speakingTimeEqualsLastUpsert (d : CacheData) (now : Int)
    (resp : SpeechResponse) (r : SpeakerRecord)
    (hr : r ∈ getCombinedData (updateSpeechData (some resp) now d))
    (hid : r.id = resp.face_id) :
    r.speaking_time = resp.speaking_time ∧
    (∀ (d₂ : CacheData) (now₂ : Int) (resp₂ : SpeechResponse) (r₂ : SpeakerRecord),
      r₂ ∈ getCombinedData (updateSpeechData (some resp₂) now₂ d₂) →
      r₂.id = resp₂.face_id →
      resp.speaking_time ≤ resp₂.speaking_time →
      r.speaking_time ≤ r₂.speaking_time) := by
  have key : ∀ (d' : CacheData) (now' : Int) (resp' : SpeechResponse) (r' : SpeakerRecord),
      r' ∈ getCombinedData (updateSpeechData (some resp') now' d') →
      r'.id = resp'.face_id → r'.speaking_time = resp'.speaking_time := by
    intro d' now' resp' r' hr' hid'
    unfold getCombinedData at hr'
    rcases List.mem_map.mp hr' with ⟨faceId, _, heq⟩
    have hfid : faceId = resp'.face_id := by
      rw [← hid', ← heq]
    subst hfid
    rw [← heq]
    simp [updateSpeechData, objGet_objSet_self]
  have h1 := key d now resp r hr hid
  refine ⟨h1, ?_⟩
  intro d₂ now₂ resp₂ r₂ hr₂ hid₂ hle
  rw [h1, key d₂ now₂ resp₂ r₂ hr₂ hid₂]
  exact hle

theorem speakingTimeEqualsLastUpsert_witness :
    ((getCombinedData c9d2).get ⟨0, by decide⟩).speaking_time = 5 ∧
    ((getCombinedData c9d2).get ⟨0, by decide⟩).speaking_time ≤
      ((getCombinedData c9d2).get ⟨0, by decide⟩).speaking_time := by
  have hmem : (getCombinedData c9d2).get ⟨0, by decide⟩ ∈ getCombinedData c9d2 :=
    List.get_mem _ _ _
  have h := speakingTimeEqualsLastUpsert c9d1 0 ⟨1, true, 5⟩ _ hmem (by decide)
  exact ⟨h.1, h.2 c9d1 0 ⟨1, true, 5⟩ _ hmem (by decide) le_rfl⟩

/-! ## Retry wrapper (serviceHandlers.js, callWithRetry)

The outcome of each attempt is a function from the attempt number to an
Except value; the wrapper returns the final outcome together with the
list of inter-attempt sleep durations it performed.  JavaScript's
lastError starts out undefined, so the error side is an Option: error
none is the throw of the still-undefined lastError that happens when
maxRetries is 0 and the loop body never runs. -/

/-- Loop of callWithRetry, recursing on the remaining attempt budget:
try the current attempt; on success return immediately; on failure
sleep for delay ms when further attempts remain, and rethrow the last
attempt's error once the budget is exhausted. -/
def retryGo (f : Nat → Except ε α) (delay : Nat) : Nat → Nat → Except (Option ε) α × List Nat
  | _, 0 => (.error none, [])
  | attempt, 1 =>
    match f attempt with
    | .ok v => (.ok v, [])
    | .error e => (.error (some e), [])
  | attempt, n + 2 =>
    match f attempt with
    | .ok v => (.ok v, [])
    | .error _ =>
      let r := retryGo f delay (attempt + 1) (n + 1)
      (r.1, delay :: r.2)

/-- callWithRetry(serviceFn, request, maxRetries, delay): attempts are
numbered from 1. -/
def callWithRetry (f : Nat → Except ε α) (maxRetries delay : Nat) :
    Except (Option ε) α × List Nat :=
  retryGo f delay 1 maxRetries

/-- C4: with the default 3 attempts and 1000 ms delay, a call failing on
attempts 1 and 2 and succeeding on attempt 3 returns that success after
exactly two 1000 ms inter-attempt delays, and a call failing on all
three attempts throws the third attempt's error, also after exactly two
delays. -/
theorem callWithRetryThreeAttempts (f : Nat → Except ε α) :
    (∀ e₁ e₂ v, f 1 = .error e₁ → f 2 = .error e₂ → f 3 = .ok v →
      callWithRetry f 3 1000 = (.ok v, [1000, 1000])) ∧
    (∀ e₁ e₂ e₃, f 1 = .error e₁ → f 2 = .error e₂ → f 3 = .error e₃ →
      callWithRetry f 3 1000 = (.error (some e₃), [1000, 1000])) := by
  constructor
  · intro e₁ e₂ v h1 h2 h3
    simp [callWithRetry, retryGo, h1, h2, h3]
  · intro e₁ e₂ e₃ h1 h2 h3
    simp [callWithRetry, retryGo, h1, h2, h3]

theorem callWithRetryThreeAttempts_witness :
    callWithRetry (fun n => if n < 3 then Except.error "boom" else Except.ok n) 3 1000 =
      (.ok 3, [1000, 1000]) ∧
    callWithRetry (fun n => (Except.error (toString n) : Except String Nat)) 3 1000 =
      (.error (some "3"), [1000, 1000]) :=
  ⟨(callWithRetryThreeAttempts (fun n => if n < 3 then Except.error "boom" else Except.ok n)).1
      "boom" "boom" 3 rfl rfl rfl,
   (callWithRetryThreeAttempts (fun n => (Except.error (toString n) : Except String Nat))).2
      "1" "2" "3" rfl rfl rfl⟩

/-! ## Request throttler (serviceHandlers.js, RequestThrottler)

One throttle() execution between suspension points is atomic on the
single JS thread.  throttleStep is that atomic prefix of throttle():
it either admits the call (incrementing requestCount, possibly after
resetting the window) or asks the caller to sleep until wakeAt and
re-run throttle(); mustWait carries the state as left by the step
(the reset mutation, when taken, persists across the sleep). -/

/-- Mutable fields of a RequestThrottler plus its configured limit. -/
structure ThrottlerState where
  maxRequestsPerSecond : Nat
  requestCount : Nat
  lastResetTime : Int
deriving DecidableEq, Repr

/-- Outcome of one atomic run of throttle(). -/
inductive ThrottleResult
  | admitted (st : ThrottlerState)
  | mustWait (st : ThrottlerState) (wakeAt : Int)
deriving DecidableEq, Repr

/-- First statement of throttle(): reset the window when more than
1000 ms have passed since lastResetTime. -/
def resetState (st : ThrottlerState) (now : Int) : ThrottlerState :=
  if now - st.lastResetTime > 1000
  then { st with requestCount := 0, lastResetTime := now } else st

/-- One atomic run of RequestThrottler.throttle at time now.  The source
nests the waitTime > 0 test inside the requestCount >= max test; a call
reaching the increment through either failing test is admitted, so the
two tests appear here as one conjunction guarding the wait. -/
def throttleStep (st : ThrottlerState) (now : Int) : ThrottleResult :=
  if (resetState st now).requestCount ≥ (resetState st now).maxRequestsPerSecond ∧
      1000 - (now - (resetState st now).lastResetTime) > 0
  then .mustWait (resetState st now)
        (now + (1000 - (now - (resetState st now).lastResetTime)))
  else .admitted
        { resetState st now with requestCount := (resetState st now).requestCount + 1 }

/-- Run of a sequence of atomic throttle() executions at the given times
(an adversarial interleaving of any number of logical callers; a
delayed call's re-run is simply a later entry).  Produces the final
state and one (time, windowId) event per admission, where windowId is
the lastResetTime the admission was accounted to. -/
def throttleRun (st : ThrottlerState) : List Int → ThrottlerState × List (Int × Int)
  | [] => (st, [])
  | now :: rest =>
    match throttleStep st now with
    | .admitted st' =>
      let r := throttleRun st' rest
      (r.1, (now, st'.lastResetTime) :: r.2)
    | .mustWait st' _ =>
      throttleRun st' rest

/-- Admissions granted strictly inside their accounting window, i.e. at
an instant with now - lastResetTime < 1000. -/
def strictInsideCount (evs : List (Int × Int)) (w : Int) : Nat :=
  (evs.filter (fun e => e.2 = w ∧ e.1 - e.2 < 1000)).length

/-- Admissions accounted to window w, wherever in the window they fell. -/
def windowCount (evs : List (Int × Int)) (w : Int) : Nat :=
  (evs.filter (fun e => e.2 = w)).length

theorem resetState_max (st : ThrottlerState) (now : Int) :
    (resetState st now).maxRequestsPerSecond = st.maxRequestsPerSecond := by
  unfold resetState
  split <;> rfl

theorem resetState_last_ge (st : ThrottlerState) (now : Int) :
    st.lastResetTime ≤ (resetState st now).lastResetTime := by
  unfold resetState
  split
  · rename_i h
    have : st.lastResetTime < now := by omega
    simpa using le_of_lt this
  · exact le_refl _

theorem throttleStep_admitted_inv {st : ThrottlerState} {now : Int} {st' : ThrottlerState}
    (h : throttleStep st now = .admitted st') :
    ¬ ((resetState st now).requestCount ≥ (resetState st now).maxRequestsPerSecond ∧
        1000 - (now - (resetState st now).lastResetTime) > 0) ∧
    st' = { resetState st now with requestCount := (resetState st now).requestCount + 1 } := by
  unfold throttleStep at h
  split at h
  · exact absurd h (by simp)
  · rename_i hc
    exact ⟨hc, (ThrottleResult.admitted.injEq _ _).mp h |>.symm⟩

theorem throttleStep_mustWait_inv {st : ThrottlerState} {now : Int} {st' : ThrottlerState}
    {w : Int} (h : throttleStep st now = .mustWait st' w) :
    ((resetState st now).requestCount ≥ (resetState st now).maxRequestsPerSecond ∧
        1000 - (now - (resetState st now).lastResetTime) > 0) ∧
    st' = resetState st now ∧
    w = now + (1000 - (now - (resetState st now).lastResetTime)) := by
  unfold throttleStep at h
  split at h
  · rename_i hc
    obtain ⟨h1, h2⟩ := (ThrottleResult.mustWait.injEq _ _ _ _).mp h
    exact ⟨hc, h1.symm, h2.symm⟩
  · exact absurd h (by simp)

theorem throttleRun_tags_ge :
    ∀ (times : List Int) (st : ThrottlerState),
      ∀ e ∈ (throttleRun st times).2, st.lastResetTime ≤ e.2 := by
  intro times
  induction times with
  | nil => intro st e he; simp [throttleRun] at he
  | cons now rest ih =>
    intro st e he
    cases h : throttleStep st now with
    | admitted st' =>
      obtain ⟨_, hst'⟩ := throttleStep_admitted_inv h
      have hlast : st.lastResetTime ≤ st'.lastResetTime := by
        rw [hst']
        exact resetState_last_ge st now
      simp only [throttleRun, h] at he
      rcases List.mem_cons.mp he with heq | hmem
      · rw [heq]
        exact hlast
      · exact le_trans hlast (ih st' e hmem)
    | mustWait st' w =>
      obtain ⟨_, hst', _⟩ := throttleStep_mustWait_inv h
      have hlast : st.lastResetTime ≤ st'.lastResetTime := by
        rw [hst']
        exact resetState_last_ge st now
      simp only [throttleRun, h] at he
      exact le_trans hlast (ih st' e he)

theorem strictInsideCount_eq_zero_of_tags_gt {evs : List (Int × Int)} {w : Int}
    (h : ∀ e ∈ evs, w < e.2) : strictInsideCount evs w = 0 := by
  unfold strictInsideCount
  rw [List.length_eq_zero]
  rw [List.filter_eq_nil_iff]
  intro e he
  have := h e he
  simp only [decide_eq_true_eq, not_and]
  intro heq
  omega

theorem strictInsideCount_cons (t tag w : Int) (evs : List (Int × Int)) :
    strictInsideCount ((t, tag) :: evs) w =
      (if tag = w ∧ t - tag < 1000 then 1 else 0) + strictInsideCount evs w := by
  unfold strictInsideCount
  rw [List.filter_cons]
  by_cases h1 : tag = w
  · subst h1
    by_cases h2 : t - tag < 1000
    · simp [h2, Nat.add_comm]
    · simp [h2]
  · simp [h1]

theorem throttleRun_strictInside_le :
    ∀ (times : List Int) (st : ThrottlerState) (w : Int),
      strictInsideCount (throttleRun st times).2 w ≤
        (if w = st.lastResetTime
         then st.maxRequestsPerSecond - st.requestCount
         else st.maxRequestsPerSecond) := by
  intro times
  induction times with
  | nil =>
    intro st w
    simp [throttleRun, strictInsideCount]
  | cons now rest ih =>
    intro st w
    cases h : throttleStep st now with
    | mustWait st' wk =>
      obtain ⟨hc, hst', _⟩ := throttleStep_mustWait_inv h
      have hrun : (throttleRun st (now :: rest)).2 = (throttleRun st' rest).2 := by
        simp [throttleRun, h]
      rw [hrun]
      by_cases hres : now - st.lastResetTime > 1000
      · have hlast : st'.lastResetTime = now := by
          rw [hst']; simp [resetState, hres]
        by_cases hw : w = st.lastResetTime
        · have hzero : strictInsideCount (throttleRun st' rest).2 w = 0 := by
            apply strictInsideCount_eq_zero_of_tags_gt
            intro e he
            have htag := throttleRun_tags_ge rest st' e he
            omega
          rw [hzero]
          exact Nat.zero_le _
        · have hb := ih st' w
          have hmax : st'.maxRequestsPerSecond = st.maxRequestsPerSecond := by
            rw [hst', resetState_max]
          rw [if_neg hw]
          rcases le_or_lt (strictInsideCount (throttleRun st' rest).2 w)
              st.maxRequestsPerSecond with hle | hgt
          · exact hle
          · exfalso
            rw [hmax] at hb
            by_cases hw' : w = st'.lastResetTime
            · rw [if_pos hw'] at hb
              omega
            · rw [if_neg hw'] at hb
              omega
      · have hst'eq : st' = st := by rw [hst']; simp [resetState, hres]
        rw [hst'eq]
        exact ih st w
    | admitted st' =>
      obtain ⟨hc, hst'⟩ := throttleStep_admitted_inv h
      have hrun : (throttleRun st (now :: rest)).2 =
          (now, st'.lastResetTime) :: (throttleRun st' rest).2 := by
        simp [throttleRun, h]
      rw [hrun, strictInsideCount_cons]
      by_cases hres : now - st.lastResetTime > 1000
      · have hfields : st'.lastResetTime = now ∧ st'.requestCount = 1 ∧
            st'.maxRequestsPerSecond = st.maxRequestsPerSecond := by
          rw [hst']; simp [resetState, hres]
        have hmax1 : 1 ≤ st.maxRequestsPerSecond := by
          by_contra hm
          apply hc
          constructor
          · simp [resetState, hres]
            omega
          · simp [resetState, hres]
        obtain ⟨hf1, hf2, hf3⟩ := hfields
        by_cases hw : w = st.lastResetTime
        · have hzero : strictInsideCount (throttleRun st' rest).2 w = 0 := by
            apply strictInsideCount_eq_zero_of_tags_gt
            intro e he
            have htag := throttleRun_tags_ge rest st' e he
            omega
          have hev : ¬ (st'.lastResetTime = w ∧ now - st'.lastResetTime < 1000) := by
            intro hcon
            omega
          rw [if_neg hev, hzero, if_pos hw]
          exact Nat.zero_le _
        · have hb := ih st' w
          rw [hf3] at hb
          rw [if_neg hw]
          by_cases hw' : w = st'.lastResetTime
          · rw [if_pos hw', hf2] at hb
            have hev : (if st'.lastResetTime = w ∧ now - st'.lastResetTime < 1000
                then 1 else 0) ≤ 1 := by
              split <;> omega
            omega
          · rw [if_neg hw'] at hb
            have hev : ¬ (st'.lastResetTime = w ∧ now - st'.lastResetTime < 1000) := by
              intro hcon
              exact hw' hcon.1.symm
            rw [if_neg hev]
            omega
      · have hfields : st'.lastResetTime = st.lastResetTime ∧
            st'.requestCount = st.requestCount + 1 ∧
            st'.maxRequestsPerSecond = st.maxRequestsPerSecond := by
          rw [hst']; simp [resetState, hres]
        obtain ⟨hf1, hf2, hf3⟩ := hfields
        have hb := ih st' w
        rw [hf3] at hb
        by_cases hw : w = st.lastResetTime
        · rw [if_pos hw]
          have hcond : w = st'.lastResetTime := hw.trans hf1.symm
          rw [if_pos hcond, hf2] at hb
          by_cases hin : now - st.lastResetTime < 1000
          · have hcnt : st.requestCount < st.maxRequestsPerSecond := by
              by_contra hcnt
              apply hc
              constructor
              · simp [resetState, hres]
                omega
              · simp [resetState, hres]
                omega
            have hev : st'.lastResetTime = w ∧ now - st'.lastResetTime < 1000 := by
              constructor
              · rw [hf1, hw]
              · rw [hf1]; exact hin
            rw [if_pos hev]
            omega
          · have hev : ¬ (st'.lastResetTime = w ∧ now - st'.lastResetTime < 1000) := by
              intro hcon
              rw [hf1] at hcon
              exact hin hcon.2
            rw [if_neg hev]
            omega
        · rw [if_neg hw]
          have hev : ¬ (st'.lastResetTime = w ∧ now - st'.lastResetTime < 1000) := by
            intro hcon
            rw [hf1] at hcon
            exact hw hcon.1.symm
          rw [if_neg hev]
          have hw' : ¬ w = st'.lastResetTime := by
            rw [hf1]; exact hw
          rw [if_neg hw'] at hb
          omega

/-- C3 counterexample: with limit 1, a fresh throttler (window opened at
time 0) admits a call at time 0 and then also admits a call arriving at
time 1000 exactly — the reset needs now - lastResetTime to exceed 1000
strictly, and waitTime is then 0 — so the window accounted at
lastResetTime 0 admits 2 > 1 calls. -/
theorem throttlerAdmitsBeyondBudgetAtWindowBoundary :
    windowCount (throttleRun ⟨1, 0, 0⟩ [0, 1000]).2 0 = 2 ∧
    ¬ windowCount (throttleRun ⟨1, 0, 0⟩ [0, 1000]).2 0 ≤ 1 := by
  constructor <;> decide

/-- C3 amended: the throttler never drops a call: an atomic throttle()
run either admits or suspends exactly until the next window opening
(lastResetTime + 1000), from whence any re-run is admitted; and, for
every sequence of atomic runs from a fresh throttler, every accounting
window admits at most maxRequestsPerSecond calls at instants strictly
inside its 1000 ms span — only calls landing exactly on the window
boundary can be admitted beyond the budget. -/
theorem throttlerDelaysAndBoundsStrictInsideAdmissions (st : ThrottlerState)
    (now : Int) (hmax : 1 ≤ st.maxRequestsPerSecond) :
    ((∃ st', throttleStep st now = .admitted st') ∨
      (throttleStep st now = .mustWait st (st.lastResetTime + 1000) ∧
        ∀ now', st.lastResetTime + 1000 ≤ now' →
          ∃ st'', throttleStep st now' = .admitted st'')) ∧
    (∀ (t0 : Int) (times : List Int) (w : Int),
      strictInsideCount
          (throttleRun ⟨st.maxRequestsPerSecond, 0, t0⟩ times).2 w ≤
        st.maxRequestsPerSecond) := by
  constructor
  · cases h : throttleStep st now with
    | admitted st' => exact Or.inl ⟨st', rfl⟩
    | mustWait st' wk =>
      obtain ⟨⟨hcnt, hwait⟩, hst', hwk⟩ := throttleStep_mustWait_inv h
      have hnores : ¬ now - st.lastResetTime > 1000 := by
        intro hres
        have : (resetState st now).requestCount = 0 := by
          simp [resetState, hres]
        rw [this, resetState_max] at hcnt
        omega
      have hreset_id : resetState st now = st := by
        simp [resetState, hnores]
      rw [hreset_id] at hst' hwk
      refine Or.inr ⟨?_, ?_⟩
      · rw [hst', hwk]
        have harith : now + (1000 - (now - st.lastResetTime)) = st.lastResetTime + 1000 := by
          ring
        rw [harith]
      · intro now' hnow'
        cases h' : throttleStep st now' with
        | admitted st'' => exact ⟨st'', rfl⟩
        | mustWait st'' wk' =>
          exfalso
          obtain ⟨⟨hcnt', hwait'⟩, _, _⟩ := throttleStep_mustWait_inv h'
          by_cases hres' : now' - st.lastResetTime > 1000
          · have : (resetState st now').requestCount = 0 := by
              simp [resetState, hres']
            rw [this, resetState_max] at hcnt'
            omega
          · have : resetState st now' = st := by
              simp [resetState, hres']
            rw [this] at hwait'
            omega
  · intro t0 times w
    have h := throttleRun_strictInside_le times ⟨st.maxRequestsPerSecond, 0, t0⟩ w
    by_cases hw : w = t0
    · simpa [hw] using h
    · simpa [hw] using h

theorem throttlerDelaysAndBoundsStrictInsideAdmissions_witness :
    ((∃ st', throttleStep ⟨10, 0, 0⟩ 5 = .admitted st') ∨
      (throttleStep ⟨10, 0, 0⟩ 5 = .mustWait ⟨10, 0, 0⟩ 1000 ∧
        ∀ now', (1000 : Int) ≤ now' →
          ∃ st'', throttleStep ⟨10, 0, 0⟩ now' = .admitted st'')) ∧
    strictInsideCount (throttleRun ⟨10, 0, 0⟩ [0, 1, 2]).2 0 ≤ 10 := by
  have h := throttlerDelaysAndBoundsStrictInsideAdmissions ⟨10, 0, 0⟩ 5 (by decide)
  exact ⟨h.1, h.2 0 [0, 1, 2] 0⟩

/-! ## YouTube stream manager admission control
(youtubeStream.js, YouTubeStreamManager.startYouTubeAnalysis)

startYouTubeAnalysis validates the URL, rejects when
activeStreams.size >= maxConcurrentStreams, and only then calls
createVideoStream (which spawns the ytdl/ffmpeg decode pipeline) and
registers the stream in activeStreams.  The model records, besides the
outcome, whether a spawn was reached and the resulting registry. -/

/-- Errors thrown by startYouTubeAnalysis before or at stream creation. -/
inductive StartError
  | invalidUrl
  | capacity
  | streamCreation
deriving DecidableEq, Repr

/-- Observable outcome of one startYouTubeAnalysis call. -/
structure StartResult where
  outcome : Except StartError String
  activeStreams : List String
  spawned : Bool
deriving Repr

/-- YouTubeStreamManager.startYouTubeAnalysis: urlValid is the result of
ytdl.validateURL, spawnOk whether createVideoStream resolves, newId the
generated stream id. -/
def startYouTubeAnalysis (urlValid spawnOk : Bool) (activeStreams : List String)
    (maxConcurrentStreams : Nat) (newId : String) : StartResult :=
  if ¬ urlValid then ⟨.error .invalidUrl, activeStreams, false⟩
  else if activeStreams.length ≥ maxConcurrentStreams then
    ⟨.error .capacity, activeStreams, false⟩
  else if spawnOk then ⟨.ok newId, activeStreams ++ [newId], true⟩
  else ⟨.error .streamCreation, activeStreams, true⟩

/-- C8: a start request arriving when the number of registered streams
already equals the concurrency cap is rejected synchronously with the
capacity error, spawns no decode process and registers no session. -/
theorem startAtCapacityIsRejectedWithoutSpawn (spawnOk : Bool)
    (activeStreams : List String) (maxConcurrentStreams : Nat) (newId : String)
    (hfull : activeStreams.length = maxConcurrentStreams) :
    startYouTubeAnalysis true spawnOk activeStreams maxConcurrentStreams newId =
      ⟨.error .capacity, activeStreams, false⟩ := by
  unfold startYouTubeAnalysis
  simp [le_of_eq hfull.symm]

theorem startAtCapacityIsRejectedWithoutSpawn_witness :
    startYouTubeAnalysis true true ["yt_a", "yt_b", "yt_c"] 3 "yt_d" =
      ⟨.error .capacity, ["yt_a", "yt_b", "yt_c"], false⟩ :=
  startAtCapacityIsRejectedWithoutSpawn true ["yt_a", "yt_b", "yt_c"] 3 "yt_d" rfl

/-! ## Per-frame fan-out (serviceHandlers.js)

processFrame awaits the vision call, then awaits batchProcessFaces,
which slices the faces array into chunks of BATCH_SIZE = 5 and, chunk
by chunk, awaits Promise.all of processDetectedFace over the chunk.
processDetectedFace awaits the face's emotion call and then its speech
call, catching each failure, so a face's promise always fulfills and a
batch's Promise.all always waits for every call of the batch, failed or
not.  The trace model renders one completed worker call as one event:
sequencing by await is concatenation, Promise.all is an arbitrary
interleaving of the per-face event sequences. -/

/-- Batch size of batchProcessFaces. -/
def BATCH_SIZE : Nat := 5

/-- Loop of batchProcessFaces: faceChunks.push(faces.slice(i, i + 5))
for i = 0, 5, 10, ... -/
def chunkLoop (faces : List Face) (i : Nat) : List (List Face) :=
  if _h : i < faces.length then
    ((faces.drop i).take BATCH_SIZE) :: chunkLoop faces (i + BATCH_SIZE)
  else []
termination_by faces.length - i
decreasing_by
  simp only [BATCH_SIZE]
  omega

/-- faceChunks as built by batchProcessFaces. -/
def batchFaceChunks (faces : List Face) : List (List Face) :=
  chunkLoop faces 0

theorem chunkLoop_join (faces : List Face) :
    ∀ (n i : Nat), faces.length - i ≤ n →
      (chunkLoop faces i).flatten = faces.drop i := by
  intro n
  induction n with
  | zero =>
    intro i hi
    have hge : faces.length ≤ i := by omega
    rw [chunkLoop]
    simp [Nat.not_lt.mpr hge, List.drop_eq_nil_of_le hge]
  | succ n ih =>
    intro i hi
    by_cases h : i < faces.length
    · rw [chunkLoop]
      simp only [h, dif_pos, List.flatten]
      rw [ih (i + BATCH_SIZE) (by simp only [BATCH_SIZE]; omega)]
      have hdrop : faces.drop (i + BATCH_SIZE) = (faces.drop i).drop BATCH_SIZE := by
        rw [List.drop_drop, Nat.add_comm]
      rw [hdrop, List.take_append_drop]
    · rw [chunkLoop]
      simp [h, List.drop_eq_nil_of_le (Nat.not_lt.mp h)]

theorem chunkLoop_sizes (faces : List Face) :
    ∀ (n i : Nat), faces.length - i ≤ n →
      ∀ c ∈ chunkLoop faces i, 0 < c.length ∧ c.length ≤ BATCH_SIZE := by
  intro n
  induction n with
  | zero =>
    intro i hi c hc
    have hge : faces.length ≤ i := by omega
    rw [chunkLoop] at hc
    simp [Nat.not_lt.mpr hge] at hc
  | succ n ih =>
    intro i hi c hc
    by_cases h : i < faces.length
    · rw [chunkLoop] at hc
      simp only [h, dif_pos, List.mem_cons] at hc
      rcases hc with rfl | hc
      · constructor
        · have hne : faces.drop i ≠ [] := by
            intro hnil
            have := List.drop_eq_nil_iff.mp hnil
            omega
          have hlen : 0 < (faces.drop i).length := List.length_pos.mpr hne
          rw [List.length_take]
          simp only [BATCH_SIZE]
          omega
        · rw [List.length_take]
          exact min_le_left _ _
      · exact ih (i + BATCH_SIZE) (by simp only [BATCH_SIZE]; omega) c hc
    · rw [chunkLoop] at hc
      simp [h] at hc

/-- Completion events of the worker calls made for one frame. -/
inductive CallEvent
  | visionCall
  | emotionCall (faceId : Nat) (succeeded : Bool)
  | speechCall (faceId : Nat) (succeeded : Bool)
deriving DecidableEq, Repr

/-- Event sequence of processDetectedFace for one face: its emotion call
completes (with either outcome) and then its speech call does. -/
def faceProgram (f : Face) (oc : Bool × Bool) : List CallEvent :=
  [CallEvent.emotionCall f.id oc.1, CallEvent.speechCall f.id oc.2]

/-- Traces of Promise.all over a list of event sequences: any
interleaving that preserves each sequence's internal order. -/
inductive IsInterleaving : List (List CallEvent) → List CallEvent → Prop
  | done : ∀ ss, (∀ s ∈ ss, s = []) → IsInterleaving ss []
  | step : ∀ (ss : List (List CallEvent)) (i : Nat) (e : CallEvent)
      (s : List CallEvent) (t : List CallEvent),
      ss[i]? = some (e :: s) → IsInterleaving (ss.set i s) t →
      IsInterleaving ss (e :: t)

/-- Traces of the chunk loop of batchProcessFaces: one interleaving per
chunk (with arbitrary per-call outcomes), chunks strictly in sequence
because each Promise.all is awaited before the next chunk starts. -/
inductive BatchesTrace : List (List Face) → List CallEvent → Prop
  | nil : BatchesTrace [] []
  | cons : ∀ (ch : List Face) (ocs : List (Bool × Bool)) chs t ts,
      ocs.length = ch.length →
      IsInterleaving (List.zipWith faceProgram ch ocs) t →
      BatchesTrace chs ts → BatchesTrace (ch :: chs) (t ++ ts)

/-- Traces of processFrame once the vision call returned the given
faces: the vision completion strictly precedes all per-face work. -/
def FrameTrace (faces : List Face) (tr : List CallEvent) : Prop :=
  ∃ t, tr = CallEvent.visionCall :: t ∧ BatchesTrace (batchFaceChunks faces) t

theorem getElem?_eq_take_cons_drop {α : Type _} :
    ∀ (ss : List α) (i : Nat) (a : α), ss[i]? = some a →
      ss = ss.take i ++ a :: ss.drop (i + 1) := by
  intro ss
  induction ss with
  | nil => intro i a h; simp at h
  | cons x xs ih =>
    intro i a h
    cases i with
    | zero =>
      simp at h
      simp [h]
    | succ i =>
      simp only [List.getElem?_cons_succ] at h
      have := ih i a h
      simp only [List.take_succ_cons, List.drop_succ_cons]
      rw [List.cons_append]
      rw [← this]

theorem set_eq_take_cons_drop {α : Type _} :
    ∀ (ss : List α) (i : Nat) (a : α), ss[i]? = some a →
      ∀ b, ss.set i b = ss.take i ++ b :: ss.drop (i + 1) := by
  intro ss
  induction ss with
  | nil => intro i a h; simp at h
  | cons x xs ih =>
    intro i a h b
    cases i with
    | zero => simp
    | succ i =>
      simp only [List.getElem?_cons_succ] at h
      simp only [List.set_cons_succ, List.take_succ_cons, List.drop_succ_cons,
        List.cons_append]
      rw [ih i a h b]

theorem isInterleaving_perm {ss : List (List CallEvent)} {t : List CallEvent}
    (h : IsInterleaving ss t) : t.Perm ss.flatten := by
  induction h with
  | done ss hall =>
    have : ss.flatten = [] := by
      rw [List.flatten_eq_nil_iff]
      exact hall
    rw [this]
  | step ss i e s t hget _hrec ih =>
    have hss : ss = ss.take i ++ (e :: s) :: ss.drop (i + 1) :=
      getElem?_eq_take_cons_drop ss i (e :: s) hget
    have hset : ss.set i s = ss.take i ++ s :: ss.drop (i + 1) :=
      set_eq_take_cons_drop ss i (e :: s) hget s
    have hjoin : ss.flatten =
        (ss.take i).flatten ++ (e :: (s ++ (ss.drop (i + 1)).flatten)) := by
      conv_lhs => rw [hss]
      rw [List.flatten_append]
      simp [List.flatten]
    have hjoinset : (ss.set i s).flatten =
        (ss.take i).flatten ++ (s ++ (ss.drop (i + 1)).flatten) := by
      rw [hset, List.flatten_append]
      simp [List.flatten]
    rw [hjoin]
    have h1 : (e :: t).Perm
        (e :: ((ss.take i).flatten ++ (s ++ (ss.drop (i + 1)).flatten))) :=
      List.Perm.cons e (hjoinset ▸ ih)
    have h2 : (e :: ((ss.take i).flatten ++ (s ++ (ss.drop (i + 1)).flatten))).Perm
        ((ss.take i).flatten ++ e :: (s ++ (ss.drop (i + 1)).flatten)) :=
      List.perm_middle.symm
    exact h1.trans h2

theorem batchesTrace_segments {chs : List (List Face)} {t : List CallEvent}
    (h : BatchesTrace chs t) :
    ∃ segs : List (List CallEvent),
      t = segs.flatten ∧
      List.Forall₂ (fun seg ch => ∃ ocs : List (Bool × Bool),
        ocs.length = ch.length ∧
        seg.Perm (List.zipWith faceProgram ch ocs).flatten) segs chs := by
  induction h with
  | nil => exact ⟨[], rfl, List.Forall₂.nil⟩
  | cons ch ocs chs tb ts hlen hint _hrec ih =>
    obtain ⟨segs, hts, hfa⟩ := ih
    refine ⟨tb :: segs, ?_, ?_⟩
    · simp [List.flatten, hts]
    · exact List.Forall₂.cons ⟨ocs, hlen, isInterleaving_perm hint⟩ hfa

/-- C2: in every admissible trace of a frame whose vision call returned
the given faces, the vision completion comes first; the faces are
partitioned, in order, into nonempty consecutive batches of at most 5;
and the trace after the vision event is the concatenation of one
segment per batch — so every emotion and speech call of batch k,
successful or failed, completes before anything of batch k + 1 — where
each segment is a permutation (an interleaving) of its batch's per-face
emotion-then-speech call pairs. -/
theorem frameFanoutBatchesAndOrder (faces : List Face) (tr : List CallEvent)
    (h : FrameTrace faces tr) :
    (batchFaceChunks faces).flatten = faces ∧
    (∀ c ∈ batchFaceChunks faces, 0 < c.length ∧ c.length ≤ 5) ∧
    ∃ segs : List (List CallEvent),
      tr = CallEvent.visionCall :: segs.flatten ∧
      List.Forall₂ (fun seg ch => ∃ ocs : List (Bool × Bool),
        ocs.length = ch.length ∧
        seg.Perm (List.zipWith faceProgram ch ocs).flatten) segs
        (batchFaceChunks faces) := by
  obtain ⟨t, htr, hbt⟩ := h
  refine ⟨?_, ?_, ?_⟩
  · have := chunkLoop_join faces faces.length 0 (by omega)
    simpa [batchFaceChunks] using this
  · intro c hc
    have := chunkLoop_sizes faces faces.length 0 (by omega) c hc
    simpa [BATCH_SIZE] using this
  · obtain ⟨segs, hts, hfa⟩ := batchesTrace_segments hbt
    exact ⟨segs, by rw [htr, hts], hfa⟩

/-- Face used to instantiate the fan-out theorem. -/
def w2face : Face := ⟨4, [9], 0, 0, 2, 2, []⟩

theorem frameFanoutBatchesAndOrder_witness :
    (batchFaceChunks [w2face]).flatten = [w2face] ∧
    (∀ c ∈ batchFaceChunks [w2face], 0 < c.length ∧ c.length ≤ 5) ∧
    ∃ segs : List (List CallEvent),
      CallEvent.visionCall :: CallEvent.emotionCall 4 true ::
          CallEvent.speechCall 4 false :: [] =
        CallEvent.visionCall :: segs.flatten ∧
      List.Forall₂ (fun seg ch => ∃ ocs : List (Bool × Bool),
        ocs.length = ch.length ∧
        seg.Perm (List.zipWith faceProgram ch ocs).flatten) segs
        (batchFaceChunks [w2face]) := by
  apply frameFanoutBatchesAndOrder
  have hchunks : batchFaceChunks [w2face] = [[w2face]] := by
    rw [batchFaceChunks, chunkLoop, chunkLoop]
    simp [BATCH_SIZE]
  refine ⟨CallEvent.emotionCall 4 true :: CallEvent.speechCall 4 false :: [], rfl, ?_⟩
  rw [hchunks]
  have hzip : List.zipWith faceProgram [w2face] [(true, false)] =
      [[CallEvent.emotionCall 4 true, CallEvent.speechCall 4 false]] := by
    simp [faceProgram, w2face]
  have hstep2 : IsInterleaving [[CallEvent.speechCall 4 false]]
      [CallEvent.speechCall 4 false] := by
    refine IsInterleaving.step _ 0 _ [] _ rfl ?_
    exact IsInterleaving.done _ (by simp)
  have hstep1 : IsInterleaving
      [[CallEvent.emotionCall 4 true, CallEvent.speechCall 4 false]]
      [CallEvent.emotionCall 4 true, CallEvent.speechCall 4 false] := by
    refine IsInterleaving.step _ 0 _ [CallEvent.speechCall 4 false] _ rfl ?_
    exact hstep2
  have hbt : BatchesTrace [[w2face]]
      ([CallEvent.emotionCall 4 true, CallEvent.speechCall 4 false] ++ []) := by
    refine BatchesTrace.cons [w2face] [(true, false)] [] _ [] (by simp) ?_
      BatchesTrace.nil
    rw [hzip]
    exact hstep1
  simpa using hbt

/-! ## JPEG frame demultiplexer
(websocket.js and youtubeStream.js data handlers)

The data handler appends each chunk to a byte accumulator and then, as
long as buffer.indexOf(FFD8) and buffer.indexOf(FFD9, start + 2) both
succeed, slices out buffer[start .. end + 1] as one frame and drops the
consumed bytes.  Bytes are modelled as Nat (0xFF = 255, 0xD8 = 216,
0xD9 = 217); Buffer.indexOf of the two-byte pattern is findMarker /
findMarkerFrom. -/

/-- Buffer.indexOf(Buffer.from([a, b])): index of the first adjacent
occurrence of the two bytes. -/
def findMarker (a b : Nat) : List Nat → Option Nat
  | x :: y :: rest =>
    if x = a ∧ y = b then some 0
    else (findMarker a b (y :: rest)).map (· + 1)
  | _ => none

/-- Buffer.indexOf(Buffer.from([a, b]), off). -/
def findMarkerFrom (a b : Nat) (l : List Nat) (off : Nat) : Option Nat :=
  (findMarker a b (l.drop off)).map (· + off)

theorem findMarker_cons2_self (a b : Nat) (l : List Nat) :
    findMarker a b (a :: b :: l) = some 0 := by
  simp [findMarker]

theorem findMarker_none_cons2 {a b x y : Nat} {l : List Nat}
    (h : findMarker a b (x :: y :: l) = none) :
    ¬ (x = a ∧ y = b) ∧ findMarker a b (y :: l) = none := by
  by_cases hc : x = a ∧ y = b
  · rw [findMarker, if_pos hc] at h
    exact Option.noConfusion h
  · rw [findMarker, if_neg hc] at h
    exact ⟨hc, Option.map_eq_none'.mp h⟩

theorem findMarker_some_bound {a b : Nat} :
    ∀ {l : List Nat} {i : Nat}, findMarker a b l = some i → i + 2 ≤ l.length := by
  intro l
  induction l with
  | nil => intro i h; exact Option.noConfusion h
  | cons x l' ih =>
    intro i h
    cases l' with
    | nil => exact Option.noConfusion h
    | cons y l'' =>
      by_cases hc : x = a ∧ y = b
      · rw [findMarker, if_pos hc] at h
        have : i = 0 := (Option.some.injEq _ _).mp h |>.symm
        subst this
        simp
      · rw [findMarker, if_neg hc] at h
        rcases Option.map_eq_some'.mp h with ⟨j, hj, hji⟩
        have := ih hj
        simp only [List.length_cons] at this ⊢
        omega

theorem findMarker_none_of_prefix {a b : Nat} :
    ∀ (l q : List Nat), q <+: l → findMarker a b l = none →
      findMarker a b q = none := by
  intro l
  induction l with
  | nil =>
    intro q hq _
    rw [List.prefix_nil.mp hq]
    rfl
  | cons x l' ih =>
    intro q hq h
    cases q with
    | nil => rfl
    | cons x' q' =>
      obtain ⟨hx, hq'⟩ := (List.cons_prefix_cons).mp hq
      subst hx
      cases q' with
      | nil => rfl
      | cons y q'' =>
        cases l' with
        | nil => exact absurd hq' (by simp)
        | cons y' l'' =>
          obtain ⟨hy, hq''⟩ := (List.cons_prefix_cons).mp hq'
          subst hy
          obtain ⟨hc, htail⟩ := findMarker_none_cons2 h
          rw [findMarker, if_neg hc, Option.map_eq_none']
          exact ih _ hq' htail

theorem findMarker_append_marker {t : List Nat} :
    ∀ (body : List Nat), findMarker 255 217 body = none →
      findMarker 255 217 (body ++ 255 :: 217 :: t) = some body.length := by
  intro body
  induction body with
  | nil =>
    intro _
    simpa using findMarker_cons2_self 255 217 t
  | cons x body' ih =>
    intro h
    cases body' with
    | nil =>
      have hc : ¬ (x = 255 ∧ (255 : Nat) = 217) := by
        intro hcon
        omega
      simp only [List.cons_append, List.nil_append]
      rw [findMarker, if_neg hc, findMarker_cons2_self]
      rfl
    | cons y body'' =>
      obtain ⟨hc, htail⟩ := findMarker_none_cons2 h
      have hrec := ih htail
      simp only [List.cons_append] at hrec ⊢
      rw [findMarker, if_neg hc, hrec]
      simp

theorem findMarker_body_ff_none :
    ∀ (body : List Nat), findMarker 255 217 body = none →
      findMarker 255 217 (body ++ [255]) = none := by
  intro body
  induction body with
  | nil => intro _; rfl
  | cons x body' ih =>
    intro h
    cases body' with
    | nil =>
      have hc : ¬ (x = 255 ∧ (255 : Nat) = 217) := by
        intro hcon
        omega
      simp only [List.cons_append, List.nil_append]
      rw [findMarker, if_neg hc]
      rfl
    | cons y body'' =>
      obtain ⟨hc, htail⟩ := findMarker_none_cons2 h
      have hrec := ih htail
      simp only [List.cons_append] at hrec ⊢
      rw [findMarker, if_neg hc, hrec]
      simp

theorem findMarkerFrom_some_bound {a b : Nat} {l : List Nat} {off e : Nat}
    (h : findMarkerFrom a b l off = some e) : off ≤ e ∧ e + 2 ≤ l.length := by
  unfold findMarkerFrom at h
  rcases Option.map_eq_some'.mp h with ⟨j, hj, hje⟩
  have hb := findMarker_some_bound hj
  rw [List.length_drop] at hb
  omega

/-- Frame-extraction while loop, fuelled: as long as a start marker and,
from two bytes past it, an end marker are found, slice out
buffer[start .. end + 1] (slice start end+2 = take (end+2) then drop
start) as one complete frame and continue on buffer.slice(end + 2).
Each iteration consumes at least two bytes, so buffer.length iterations
always suffice (extractLoopF_fuel_enough below). -/
def extractLoopF : Nat → List Nat → List (List Nat) × List Nat
  | 0, buf => ([], buf)
  | fuel + 1, buf =>
    match findMarker 255 216 buf with
    | none => ([], buf)
    | some s =>
      match findMarkerFrom 255 217 buf (s + 2) with
      | none => ([], buf)
      | some e =>
        let res := extractLoopF fuel (buf.drop (e + 2))
        (((buf.take (e + 2)).drop s) :: res.1, res.2)

/-- The extraction loop run to completion on the accumulator. -/
def extractLoop (buf : List Nat) : List (List Nat) × List Nat :=
  extractLoopF buf.length buf

theorem extractLoopF_no_start {fuel : Nat} {buf : List Nat}
    (h : findMarker 255 216 buf = none) : extractLoopF fuel buf = ([], buf) := by
  cases fuel with
  | zero => rfl
  | succ fuel => rw [extractLoopF, h]

theorem extractLoopF_no_end {fuel : Nat} {buf : List Nat} {s : Nat}
    (h : findMarker 255 216 buf = some s)
    (h' : findMarkerFrom 255 217 buf (s + 2) = none) :
    extractLoopF fuel buf = ([], buf) := by
  cases fuel with
  | zero => rfl
  | succ fuel =>
    rw [extractLoopF, h]
    simp [h']

theorem extractLoopF_found {fuel : Nat} {buf : List Nat} {s e : Nat}
    (h : findMarker 255 216 buf = some s)
    (h' : findMarkerFrom 255 217 buf (s + 2) = some e) :
    extractLoopF (fuel + 1) buf =
      (((buf.take (e + 2)).drop s) :: (extractLoopF fuel (buf.drop (e + 2))).1,
        (extractLoopF fuel (buf.drop (e + 2))).2) := by
  rw [extractLoopF, h]
  simp [h']

theorem extractLoopF_fuel_enough :
    ∀ (fuel : Nat) (buf : List Nat), buf.length ≤ fuel →
      extractLoopF fuel buf = extractLoop buf := by
  intro fuel
  induction fuel using Nat.strong_induction_on with
  | _ fuel ih =>
    intro buf h
    cases fuel with
    | zero =>
      have : buf = [] := List.length_eq_zero.mp (by omega)
      subst this
      rfl
    | succ m =>
      cases h216 : findMarker 255 216 buf with
      | none =>
        rw [extractLoopF_no_start h216, extractLoop, extractLoopF_no_start h216]
      | some s =>
        cases h217 : findMarkerFrom 255 217 buf (s + 2) with
        | none =>
          rw [extractLoopF_no_end h216 h217, extractLoop,
            extractLoopF_no_end h216 h217]
        | some e =>
          obtain ⟨hse, hlen⟩ := findMarkerFrom_some_bound h217
          have hdroplen : (buf.drop (e + 2)).length = buf.length - (e + 2) :=
            List.length_drop _ _
          have h1 : extractLoopF m (buf.drop (e + 2)) =
              extractLoop (buf.drop (e + 2)) := ih m (by omega) _ (by omega)
          cases hbl : buf.length with
          | zero => omega
          | succ n =>
            have h2 : extractLoopF n (buf.drop (e + 2)) =
                extractLoop (buf.drop (e + 2)) := ih n (by omega) _ (by omega)
            rw [extractLoopF_found h216 h217, extractLoop, hbl,
              extractLoopF_found h216 h217, h1, h2]

/-- A well-formed JPEG frame of the kind C1 quantifies over: the start
marker, a body containing neither marker, and the end marker. -/
def WellFormedFrame (f : List Nat) : Prop :=
  ∃ body, f = 255 :: 216 :: (body ++ [255, 217]) ∧
    findMarker 255 216 body = none ∧ findMarker 255 217 body = none

theorem wellFormedFrame_length {f : List Nat} (h : WellFormedFrame f) :
    4 ≤ f.length := by
  obtain ⟨body, hf, -, -⟩ := h
  rw [hf]
  simp

/-- On a buffer that extends a whole well-formed frame, the loop finds
the start marker at 0 and the end marker exactly at the frame's end,
and slices out exactly the frame. -/
theorem extract_step_complete {f rest : List Nat} (hf : WellFormedFrame f) :
    findMarker 255 216 (f ++ rest) = some 0 ∧
    findMarkerFrom 255 217 (f ++ rest) 2 = some (f.length - 2) ∧
    ((f ++ rest).take (f.length - 2 + 2)).drop 0 = f ∧
    (f ++ rest).drop (f.length - 2 + 2) = rest := by
  obtain ⟨body, hfeq, -, h217⟩ := hf
  have hflen : f.length = body.length + 4 := by
    rw [hfeq]; simp
  have hdrop2 : (f ++ rest).drop 2 = body ++ 255 :: 217 :: rest := by
    rw [hfeq]
    simp [List.append_assoc]
  refine ⟨?_, ?_, ?_, ?_⟩
  · rw [hfeq]
    exact findMarker_cons2_self 255 216 _
  · rw [findMarkerFrom, hdrop2, findMarker_append_marker body h217]
    simp only [Option.map_some']
    congr 1
    omega
  · have : f.length - 2 + 2 = f.length := by omega
    rw [this, List.drop_zero, List.take_left]
  · have : f.length - 2 + 2 = f.length := by omega
    rw [this, List.drop_left]

/-- On a strict prefix of a well-formed frame, the loop finds no
complete frame and leaves the buffer untouched. -/
theorem extract_step_incomplete {f buf : List Nat} (hf : WellFormedFrame f)
    (hpre : buf <+: f) (hlt : buf.length < f.length) :
    extractLoop buf = ([], buf) := by
  obtain ⟨body, hfeq, -, h217⟩ := hf
  have hflen : f.length = body.length + 4 := by
    rw [hfeq]; simp
  cases buf with
  | nil => rfl
  | cons x buf' =>
    cases buf' with
    | nil =>
      apply extractLoopF_no_start
      rfl
    | cons y q =>
      rw [hfeq] at hpre
      obtain ⟨hx, hpre'⟩ := List.cons_prefix_cons.mp hpre
      obtain ⟨hy, hq⟩ := List.cons_prefix_cons.mp hpre'
      subst hx
      subst hy
      have hqlen : q.length ≤ body.length + 1 := by
        simp only [List.length_cons] at hlt
        omega
      have hq255 : q <+: body ++ [255] := by
        have hqtake : q = (body ++ [255, 217]).take q.length :=
          List.prefix_iff_eq_take.mp hq
        have hsplit : body ++ [255, 217] = (body ++ [255]) ++ [217] := by
          simp
        have htake : (body ++ [255, 217]).take q.length =
            (body ++ [255]).take q.length := by
          rw [hsplit]
          rw [List.take_append_of_le_length]
          simp
          omega
        rw [hqtake, htake]
        exact List.take_prefix _ _
      have hq217 : findMarker 255 217 q = none :=
        findMarker_none_of_prefix _ q hq255 (findMarker_body_ff_none body h217)
      refine @extractLoopF_no_end _ _ 0 (findMarker_cons2_self 255 216 q) ?_
      rw [findMarkerFrom]
      simp only [List.drop_succ_cons, List.drop_zero, hq217]
      rfl

theorem extractLoop_found {buf : List Nat} {s e : Nat}
    (h : findMarker 255 216 buf = some s)
    (h' : findMarkerFrom 255 217 buf (s + 2) = some e) :
    extractLoop buf =
      (((buf.take (e + 2)).drop s) :: (extractLoop (buf.drop (e + 2))).1,
        (extractLoop (buf.drop (e + 2))).2) := by
  obtain ⟨hse, hlen⟩ := findMarkerFrom_some_bound h'
  cases hbl : buf.length with
  | zero => omega
  | succ n =>
    rw [extractLoop, hbl, extractLoopF_found h h',
      extractLoopF_fuel_enough n _ (by rw [List.length_drop]; omega)]

/-- The residual accumulator after extraction: empty when no frames
remain, otherwise a strict prefix of the next frame. -/
def ShortResidual : List (List Nat) → List Nat → Prop
  | [], r => r = []
  | f :: _, r => r.length < f.length ∧ r <+: f

theorem extractLoop_spec :
    ∀ (n : Nat) (buf : List Nat), buf.length ≤ n →
      ∀ (G : List (List Nat)), (∀ f ∈ G, WellFormedFrame f) →
        buf <+: G.flatten →
        ∃ k r, extractLoop buf = (G.take k, r) ∧
          buf = (G.take k).flatten ++ r ∧
          ShortResidual (G.drop k) r := by
  intro n
  induction n with
  | zero =>
    intro buf h G hG hpre
    have hbuf : buf = [] := List.length_eq_zero.mp (by omega)
    subst hbuf
    refine ⟨0, [], rfl, rfl, ?_⟩
    cases G with
    | nil => rfl
    | cons f G' =>
      have := wellFormedFrame_length (hG f (List.mem_cons_self f G'))
      exact ⟨by simpa using by omega, List.nil_prefix⟩
  | succ n ih =>
    intro buf h G hG hpre
    cases G with
    | nil =>
      have hbuf : buf = [] := List.prefix_nil.mp (by simpa using hpre)
      subst hbuf
      exact ⟨0, [], rfl, rfl, rfl⟩
    | cons f G' =>
      have hf : WellFormedFrame f := hG f (List.mem_cons_self f G')
      have hflat : (f :: G').flatten = f ++ G'.flatten := by simp
      rw [hflat] at hpre
      by_cases hlt : buf.length < f.length
      · have hbf : buf <+: f :=
          List.prefix_of_prefix_length_le hpre (List.prefix_append f G'.flatten)
            (by omega)
        refine ⟨0, buf, ?_, rfl, hlt, hbf⟩
        exact extract_step_incomplete hf hbf hlt
      · have hge : f.length ≤ buf.length := by omega
        have hfpre : f <+: buf :=
          List.prefix_of_prefix_length_le (List.prefix_append f G'.flatten) hpre hge
        obtain ⟨buf2, hbuf⟩ := hfpre
        have hflen4 := wellFormedFrame_length hf
        have hbuf2pre : buf2 <+: G'.flatten := by
          rw [← hbuf] at hpre
          exact (List.prefix_append_right_inj f).mp hpre
        obtain ⟨h216, h217, htake, hdrop⟩ := @extract_step_complete f buf2 hf
        rw [hbuf] at h216 h217 htake hdrop
        have hext : extractLoop buf =
            (f :: (extractLoop buf2).1, (extractLoop buf2).2) := by
          have := extractLoop_found h216 (by simpa using h217)
          rw [this, htake]
          rw [hdrop]
        have hbuf2len : buf2.length ≤ n := by
          have : buf.length = f.length + buf2.length := by
            rw [← hbuf, List.length_append]
          omega
        obtain ⟨k', r, hext2, heq2, hshort2⟩ := ih buf2 hbuf2len G'
          (fun g hg => hG g (List.mem_cons_of_mem f hg)) hbuf2pre
        refine ⟨k' + 1, r, ?_, ?_, ?_⟩
        · rw [hext, hext2]
          rfl
        · rw [← hbuf, heq2]
          simp
        · simpa using hshort2

/-! ## Demultiplexer state machine -/

/-- Per-stream demultiplexer state: the frames handed to the frame
processor so far, in order, and the byte accumulator. -/
structure DemuxState where
  frames : List (List Nat)
  buffer : List Nat
deriving DecidableEq, Repr

/-- One data event: append the chunk to the accumulator and extract
every complete frame. -/
def feedChunk (st : DemuxState) (chunk : List Nat) : DemuxState :=
  ⟨st.frames ++ (extractLoop (st.buffer ++ chunk)).1,
    (extractLoop (st.buffer ++ chunk)).2⟩

/-- The whole stream: chunks arrive one at a time at a fresh state. -/
def runDemux (chunks : List (List Nat)) : DemuxState :=
  chunks.foldl feedChunk ⟨[], []⟩

/-- Invariant tying a demux state to the frame sequence G and the bytes
fed so far. -/
def DemuxInv (G : List (List Nat)) (fed : List Nat) (st : DemuxState) : Prop :=
  ∃ k, st.frames = G.take k ∧ fed = (G.take k).flatten ++ st.buffer ∧
    ShortResidual (G.drop k) st.buffer

theorem feedChunk_inv {G : List (List Nat)} (hG : ∀ f ∈ G, WellFormedFrame f)
    {fed : List Nat} {st : DemuxState} (hinv : DemuxInv G fed st)
    {c : List Nat} (hpre : (fed ++ c) <+: G.flatten) :
    DemuxInv G (fed ++ c) (feedChunk st c) := by
  obtain ⟨k, hframes, hfed, _hshort⟩ := hinv
  have hGsplit : G.flatten = (G.take k).flatten ++ (G.drop k).flatten := by
    rw [← List.flatten_append, List.take_append_drop]
  have hbufc : (st.buffer ++ c) <+: (G.drop k).flatten := by
    have h1 : ((G.take k).flatten ++ (st.buffer ++ c)) <+:
        ((G.take k).flatten ++ (G.drop k).flatten) := by
      rw [← hGsplit, ← List.append_assoc, ← hfed]
      exact hpre
    exact (List.prefix_append_right_inj _).mp h1
  obtain ⟨k₂, r, hext, heq, hshort₂⟩ :=
    extractLoop_spec (st.buffer ++ c).length _ le_rfl (G.drop k)
      (fun f hf => hG f (List.mem_of_mem_drop hf)) hbufc
  refine ⟨k + k₂, ?_, ?_, ?_⟩
  · show st.frames ++ (extractLoop (st.buffer ++ c)).1 = G.take (k + k₂)
    rw [hframes, hext, List.take_add]
  · show fed ++ c = (G.take (k + k₂)).flatten ++ (extractLoop (st.buffer ++ c)).2
    rw [hext]
    rw [hfed, List.append_assoc, heq, List.take_add, List.flatten_append,
      List.append_assoc]
  · show ShortResidual (G.drop (k + k₂)) (extractLoop (st.buffer ++ c)).2
    have hdd : G.drop (k + k₂) = (G.drop k).drop k₂ := by
      rw [List.drop_drop, Nat.add_comm]
    rw [hext, hdd]
    exact hshort₂

theorem demux_foldl_inv {G : List (List Nat)} (hG : ∀ f ∈ G, WellFormedFrame f) :
    ∀ (cs : List (List Nat)) (fed : List Nat) (st : DemuxState),
      DemuxInv G fed st → (fed ++ cs.flatten) <+: G.flatten →
      DemuxInv G (fed ++ cs.flatten) (cs.foldl feedChunk st) := by
  intro cs
  induction cs with
  | nil =>
    intro fed st hinv _
    simpa using hinv
  | cons c cs ih =>
    intro fed st hinv hpre
    have hassoc : fed ++ (c :: cs).flatten = (fed ++ c) ++ cs.flatten := by
      simp
    have hpre1 : (fed ++ c) <+: G.flatten := by
      refine List.IsPrefix.trans ?_ (hassoc ▸ hpre)
      exact List.prefix_append _ _
    have hinv1 := feedChunk_inv hG hinv hpre1
    have h2 := ih (fed ++ c) (feedChunk st c) hinv1 (hassoc ▸ hpre)
    rw [hassoc]
    exact h2

/-- C1: feeding any chunking of the concatenation of three well-formed
JPEG frames through the accumulator makes the demultiplexer emit
exactly those three frames, byte-identical and in order, with an empty
residual accumulator. -/
theorem demuxEmitsFramesExactly (f₁ f₂ f₃ : List Nat) (cs : List (List Nat))
    (h1 : WellFormedFrame f₁) (h2 : WellFormedFrame f₂) (h3 : WellFormedFrame f₃)
    (hcs : cs.flatten = f₁ ++ (f₂ ++ f₃)) :
    (runDemux cs).frames = [f₁, f₂, f₃] ∧ (runDemux cs).buffer = [] := by
  rw [runDemux]
  set G : List (List Nat) := [f₁, f₂, f₃] with hGdef
  have hG : ∀ f ∈ G, WellFormedFrame f := by
    intro f hf
    rw [hGdef] at hf
    simp only [List.mem_cons, List.not_mem_nil, or_false] at hf
    rcases hf with rfl | rfl | rfl
    · exact h1
    · exact h2
    · exact h3
  have hGflat : G.flatten = cs.flatten := by
    rw [hGdef, hcs]
    simp
  have hinv0 : DemuxInv G [] ⟨[], []⟩ := by
    refine ⟨0, rfl, rfl, ?_⟩
    have h4 := wellFormedFrame_length h1
    refine ⟨?_, List.nil_prefix⟩
    show ([] : List Nat).length < f₁.length
    simp only [List.length_nil]
    omega
  have hfinal := demux_foldl_inv hG cs [] ⟨[], []⟩ hinv0
    (by rw [List.nil_append, hGflat])
  rw [List.nil_append] at hfinal
  obtain ⟨k, hframes, hfed, hshort⟩ := hfinal
  rw [← hGflat] at hfed
  have hGsplit : G.flatten = (G.take k).flatten ++ (G.drop k).flatten := by
    rw [← List.flatten_append, List.take_append_drop]
  have hbuf : (runDemux cs).buffer = (G.drop k).flatten := by
    have := hGsplit.symm.trans hfed
    exact (List.append_cancel_left this).symm
  cases hGd : G.drop k with
  | nil =>
    have hklen : G.length ≤ k := by
      have := List.drop_eq_nil_iff.mp hGd
      omega
    have hframesG : (runDemux cs).frames = G := by
      rw [runDemux, hframes, List.take_of_length_le hklen]
    rw [hGd] at hbuf
    exact ⟨hframesG, by simpa using hbuf⟩
  | cons g rest =>
    exfalso
    rw [hGd] at hshort hbuf
    have hlen : (runDemux cs).buffer.length < g.length := hshort.1
    rw [hbuf] at hlen
    simp [List.length_append] at hlen

theorem demuxEmitsFramesExactly_witness :
    (runDemux [[255, 216], [1, 255], [217, 255, 216, 2, 255], [217],
        [255, 216, 3, 255, 217]]).frames =
      [[255, 216, 1, 255, 217], [255, 216, 2, 255, 217],
        [255, 216, 3, 255, 217]] ∧
    (runDemux [[255, 216], [1, 255], [217, 255, 216, 2, 255], [217],
        [255, 216, 3, 255, 217]]).buffer = [] :=
  demuxEmitsFramesExactly _ _ _ _
    ⟨[1], rfl, rfl, rfl⟩ ⟨[2], rfl, rfl, rfl⟩ ⟨[3], rfl, rfl, rfl⟩ (by decide)

end Jules
